import Mathlib

/-
Verification of the associative-memory energy engines of the `amtutorial`
repository against their natural-language specification.

The discrete data model: a query state is a length-D bipolar vector,
embedded here as `List ℤ` (entries are meant to be -1 or +1, which is an
invariant of the discrete path, not of the type).  A memory matrix is a
list of stored patterns, `List (List ℤ)`.  Energies are exact numbers:
the quadratic and polynomial families land in `ℚ`, the exponential and
continuous families in `ℝ`.  The discrete engine itself is generic in a
linearly ordered field of energy values, since `BinaryAM.async_update`
only subtracts and compares energies.
-/

set_option maxHeartbeats 1000000

namespace AMTutorial

/-- Dot product of two integer vectors, `Xi_mu @ sigma` restricted to one
stored row; mirrors the `jnp` matrix-vector product rowwise. -/
def dotZ (a b : List ℤ) : ℤ :=
  (List.zipWith (· * ·) a b).sum

/-- Embedding of `jnp.array(sigma).at[idx].multiply(-1)`: negate the entry
at position `idx`, leaving the list unchanged when `idx` is out of range. -/
def flipAt : List ℤ → ℕ → List ℤ
  | [], _ => []
  | x :: xs, 0 => (-x) :: xs
  | x :: xs, Nat.succ n => x :: flipAt xs n

/-- Embedding of `BinaryAM.async_update`: compare the energy of the query
with the energy of the query with bit `idx` flipped, and keep whichever is
strictly lower (ties keep the unflipped state).  Returns the kept state and
its energy, exactly as the `lax.cond` in the source does. -/
def async_update {α : Type} [LinearOrderedField α]
    (E : List ℤ → α) (σ : List ℤ) (idx : ℕ) : List ℤ × α :=
  let sigma_flipped := flipAt σ idx
  let energy_og := E σ
  let energy_flipped := E sigma_flipped
  if energy_flipped - energy_og < 0 then (sigma_flipped, energy_flipped)
  else (σ, energy_og)

/-- Embedding of the `lax.scan` of `update_step` inside
`BinaryAM.async_recall`: apply `async_update` at each index of the bit-flip
sequence, emitting the kept state and its energy at every step.  Returns
`(final state, (frames, energies))`. -/
def async_recall_scan {α : Type} [LinearOrderedField α]
    (E : List ℤ → α) : List ℤ → List ℕ → List ℤ × (List (List ℤ) × List α)
  | σ, [] => (σ, ([], []))
  | σ, i :: rest =>
    let p := async_update E σ i
    let r := async_recall_scan E p.1 rest
    (r.1, (p.1 :: r.2.1, p.2 :: r.2.2))

/-- Modelled from the spec: `jax.random.choice(key, np.arange(D), shape=(nsteps,))`
is an external PRNG primitive (the jax library is not part of this
repository); the spec requires only that it draw, deterministically from the
seed, `nsteps` indices uniformly in `{0, ..., D-1}` with replacement.  We
model it by a linear-congruential sequence reduced mod `D`. -/
def bitflipSeq (key D nsteps : ℕ) : List ℕ :=
  (List.range nsteps).map (fun t => (1103515245 * (key + t) + 12345) % D)

/-- Embedding of `BinaryAM.async_recall`: sample the bit-flip sequence from
the key and fold `async_update` over it, returning the final pattern and the
trajectory of per-step states and energies. -/
def async_recall {α : Type} [LinearOrderedField α]
    (E : List ℤ → α) (σ0 : List ℤ) (nsteps : ℕ) (key : ℕ) :
    List ℤ × (List (List ℤ) × List α) :=
  async_recall_scan E σ0 (bitflipSeq key σ0.length nsteps)

/-- Embedding of `CHN.energy`: the quadratic (Classical Hopfield) energy
`-0.5 * jnp.sum((Xi @ sigma) ** 2)`. -/
def CHN.energy (Xi : List (List ℤ)) (σ : List ℤ) : ℚ :=
  -(1 / 2) * ((Xi.map (fun ξ => ((dotZ ξ σ : ℚ)) ^ 2)).sum)

/-- Embedding of the `PolynomialDenseAM` dataclass: its three fields,
exactly as declared in the source (an `eqx.Module`). -/
structure PolynomialDenseAM where
  Xi : List (List ℤ)
  n : ℤ
  rectified : Bool := true

/-- Embedding of `PolynomialDenseAM` construction.  The source class body
contains no validation of any kind (no `__check_init__`, no assertion): the
dataclass constructor just records the fields, whatever `n` is. -/
def PolynomialDenseAM.init (Xi : List (List ℤ)) (n : ℤ)
    (rectified : Bool := true) : PolynomialDenseAM :=
  ⟨Xi, n, rectified⟩

/-- Embedding of `PolynomialDenseAM.F_n`: rectify (clip at 0) when the flag
is set, then take `1/n * sims ** n`. -/
def PolynomialDenseAM.F_n (m : PolynomialDenseAM) (sims : ℚ) : ℚ :=
  let s := if m.rectified then max sims 0 else sims
  1 / (m.n : ℚ) * s ^ m.n

/-- Embedding of `PolynomialDenseAM.energy`: `-jnp.sum(F_n(Xi @ sigma))`. -/
def PolynomialDenseAM.energy (m : PolynomialDenseAM) (σ : List ℤ) : ℚ :=
  -((m.Xi.map (fun ξ => m.F_n ((dotZ ξ σ : ℚ)))).sum)

noncomputable section RealModel

/-- Largest element of a list of reals (the running max that
`jax.nn.logsumexp` subtracts); 0 on the empty list, which never arises in
the energies below. -/
def maxList : List ℝ → ℝ
  | [] => 0
  | x :: xs => xs.foldl max x

/-- Modelled from the spec: `jax.nn.logsumexp` is an external jax primitive
(not part of this repository); the spec pins down its evaluation strategy as
the numerically stable log-sum-exp identity, subtracting the running max
before exponentiating.  In exact real arithmetic that strategy reads
`m + log (sum_i exp (x_i - m))` with `m` the maximum entry. -/
def logsumexp (l : List ℝ) : ℝ :=
  maxList l + Real.log ((l.map (fun a => Real.exp (a - maxList l))).sum)

/-- Embedding of `ExponentialDenseAM.energy`:
`-jax.nn.logsumexp(beta * Xi @ sigma, axis=-1)`. -/
def ExponentialDenseAM.energy (Xi : List (List ℤ)) (beta : ℝ)
    (σ : List ℤ) : ℝ :=
  -logsumexp (Xi.map (fun ξ => beta * (dotZ ξ σ : ℝ)))

/-- Definition following the spec's words, for the refinement claim: the
naive closed form `E(σ) = -log Σ_μ exp(β·Ξ_μ·σ)`, with no max
subtraction. -/
def ExponentialDenseAM.energy_naive (Xi : List (List ℤ)) (beta : ℝ)
    (σ : List ℤ) : ℝ :=
  -Real.log ((Xi.map (fun ξ => Real.exp (beta * (dotZ ξ σ : ℝ)))).sum)

/-- Embedding of the `ETConfig` dataclass with its source defaults. -/
structure ETConfig where
  D : ℕ := 768
  H : ℕ := 12
  Y : ℕ := 64
  M : ℕ := 3072
  beta : Option ℝ := none
  prevent_self_attention : Bool := true

/-- Embedding of `ETConfig.get_beta`, which is
`return self.beta or 1/jnp.sqrt(self.Y)`.  Python `or` returns its right
operand whenever the left one is falsy, i.e. both when `beta` is `None` and
when it is `0.0`. -/
def ETConfig.get_beta (c : ETConfig) : ℝ :=
  match c.beta with
  | none => 1 / Real.sqrt c.Y
  | some b => if b = 0 then 1 / Real.sqrt c.Y else b

/-- Embedding of the `EnergyLayerNorm` module fields; `gamma` is a scalar
gain (by design, not a per-component vector) and `delta` a per-component
bias used only when `use_bias` is set. -/
structure EnergyLayerNorm (D : ℕ) where
  gamma : ℝ
  delta : Fin D → ℝ
  use_bias : Bool := false
  eps : ℝ := 1e-5

/-- Embedding of `EnergyLayerNorm.lagrangian`:
`D * gamma * sqrt((1/D * xmeaned**2).sum() + eps)`, plus `(delta * x).sum()`
when the bias is enabled. -/
def EnergyLayerNorm.lagrangian {D : ℕ} (ln : EnergyLayerNorm D)
    (x : Fin D → ℝ) : ℝ :=
  let xmeaned := fun i => x i - (∑ j, x j) / D
  let t1 := D * ln.gamma * Real.sqrt ((∑ i, 1 / (D : ℝ) * xmeaned i ^ 2) + ln.eps)
  if ln.use_bias then t1 + ∑ i, ln.delta i * x i else t1

/-- Embedding of `EnergyLayerNorm.__call__`:
`gamma * xmeaned / sqrt((xmeaned**2).mean(-1) + eps)`, plus `delta` when the
bias is enabled. -/
def EnergyLayerNorm.call {D : ℕ} (ln : EnergyLayerNorm D)
    (x : Fin D → ℝ) : Fin D → ℝ :=
  let xmeaned := fun i => x i - (∑ j, x j) / D
  let v := fun i =>
    ln.gamma * xmeaned i / Real.sqrt ((∑ j, xmeaned j ^ 2) / D + ln.eps)
  if ln.use_bias then fun i => v i + ln.delta i else v

/-- Elementwise matrix difference on token matrices (lists of rows). -/
def matSub (a b : List (List ℝ)) : List (List ℝ)  :=
  List.zipWith (List.zipWith (fun u v => u - v)) a b

/-- Scalar multiple of a token matrix. -/
def matSmul (c : ℝ) (a : List (List ℝ)) : List (List ℝ) :=
  a.map (List.map (fun u => c * u))

/-- Embedding of the `lax.scan` of `gd_step` shared by
`ImageEnergyTransformer.__call__` and `energy_recall`:
`xhat = lnorm(x)`; `E, dEdg = jax.value_and_grad(energy)(xhat)`;
`x ← x - step_size * dEdg`; record `(xhat, E)` for the trajectory.  The
layer norm, the energy and its gradient enter as function parameters:
`jax.value_and_grad` is the external autodifferentiation collaborator, so
`egrad` stands for the gradient function it returns. -/
def gd_scan (lnorm : List (List ℝ) → List (List ℝ))
    (energy : List (List ℝ) → ℝ)
    (egrad : List (List ℝ) → List (List ℝ)) (step_size : ℝ) :
    List (List ℝ) → ℕ → List (List ℝ) × (List (List (List ℝ)) × List ℝ)
  | x, 0 => (x, ([], []))
  | x, Nat.succ n =>
    let xhat := lnorm x
    let e := energy xhat
    let g := egrad xhat
    let r := gd_scan lnorm energy egrad step_size
      (matSub x (matSmul step_size g)) n
    (r.1, (xhat :: r.2.1, e :: r.2.2))

/-- Embedding of the minimization core of `ImageEnergyTransformer.__call__`:
starting from the prepared token matrix (tokenify/encode/prep_tokens are
excluded image-pipeline glue), run `nsteps` gradient-descent steps, then
evaluate the layer norm and the energy once more on the final token state
and append both to the trajectory (the source's
`jnp.concatenate([traj, final[None]])` lines).  The post-loop
decode/untokenify steps are likewise excluded glue and do not touch the
trajectory. -/
def imageET_call (lnorm : List (List ℝ) → List (List ℝ))
    (energy : List (List ℝ) → ℝ)
    (egrad : List (List ℝ) → List (List ℝ))
    (x0 : List (List ℝ)) (nsteps : ℕ) (step_size : ℝ) :
    List (List ℝ) × (List (List (List ℝ)) × List ℝ) :=
  let r := gd_scan lnorm energy egrad step_size x0 nsteps
  let xhat_final := lnorm r.1
  (r.1, (r.2.1 ++ [xhat_final], r.2.2 ++ [energy xhat_final]))

/-- Embedding of `energy_recall`, the bare continuous recall loop: start
from `lnorm(x_init)` and run `nsteps` `gd_step`s, recording the energies
(no extra final entry is appended here).  No randomness enters anywhere. -/
def energy_recall (lnorm : List (List ℝ) → List (List ℝ))
    (energy : List (List ℝ) → ℝ)
    (egrad : List (List ℝ) → List (List ℝ))
    (x_init : List (List ℝ)) (nsteps : ℕ) (step_size : ℝ) :
    List (List ℝ) × List ℝ :=
  let r := gd_scan lnorm energy egrad step_size (lnorm x_init) nsteps
  (r.1, r.2.2)

end RealModel

section EngineLemmas

variable {α : Type} [LinearOrderedField α]

/-- The energy recorded by one asynchronous update is the energy of the
state it returns. -/
theorem async_update_energy_eq (E : List ℤ → α) (σ : List ℤ) (i : ℕ) :
    (async_update E σ i).2 = E (async_update E σ i).1 := by
  unfold async_update
  dsimp only
  split <;> rfl

/-- One asynchronous update never increases the energy. -/
theorem async_update_energy_le (E : List ℤ → α) (σ : List ℤ) (i : ℕ) :
    (async_update E σ i).2 ≤ E σ := by
  unfold async_update
  dsimp only
  split
  · next h => linarith
  · exact le_rfl

/-- One asynchronous update either keeps the state (with its energy) or
moves to the flipped state, and it only moves on a strict energy decrease. -/
theorem async_update_cases (E : List ℤ → α) (σ : List ℤ) (i : ℕ) :
    async_update E σ i = (σ, E σ) ∨
      (async_update E σ i = (flipAt σ i, E (flipAt σ i)) ∧
        E (flipAt σ i) < E σ) := by
  unfold async_update
  dsimp only
  split
  · next h => exact Or.inr ⟨rfl, by linarith⟩
  · exact Or.inl rfl

/-- The recorded energies of a recall trajectory form a descending chain
below the energy of the state the scan starts from. -/
theorem async_recall_scan_chain (E : List ℤ → α) (seq : List ℕ) (σ : List ℤ) :
    List.Chain (fun a b => b ≤ a) (E σ) (async_recall_scan E σ seq).2.2 := by
  induction seq generalizing σ with
  | nil => exact List.Chain.nil
  | cons i rest ih =>
    refine List.Chain.cons (async_update_energy_le E σ i) ?_
    rw [async_update_energy_eq E σ i]
    exact ih (async_update E σ i).1

/-- Trajectory lengths of the scan both agree with the index-sequence
length. -/
theorem async_recall_scan_lengths (E : List ℤ → α) (seq : List ℕ) (σ : List ℤ) :
    (async_recall_scan E σ seq).2.1.length = seq.length ∧
      (async_recall_scan E σ seq).2.2.length = seq.length := by
  induction seq generalizing σ with
  | nil => exact ⟨rfl, rfl⟩
  | cons i rest ih =>
    have h := ih (async_update E σ i).1
    simpa [async_recall_scan] using h

/-- A descending chain, read off positionally with `getD`. -/
theorem chain_le_getD {l : List α} {a : α}
    (h : List.Chain (fun a b => b ≤ a) a l) :
    (∀ t, t + 1 < l.length → l.getD (t + 1) 0 ≤ l.getD t 0) ∧
      (0 < l.length → l.getD 0 0 ≤ a) := by
  induction l generalizing a with
  | nil => exact ⟨fun t ht => absurd ht (by simp), fun h0 => absurd h0 (by simp)⟩
  | cons b rest ih =>
    rcases h with _ | ⟨hab, hrest⟩
    refine ⟨?_, fun _ => hab⟩
    intro t ht
    cases t with
    | zero =>
      have := (ih hrest).2
      cases rest with
      | nil => simp at ht
      | cons c cs => simpa using this (by simp)
    | succ s =>
      have := (ih hrest).1 s (by simpa using ht)
      simpa using this

/-- Negating one entry preserves membership of every entry in `{-1, +1}`. -/
theorem flipAt_bipolar {σ : List ℤ} (h : ∀ v ∈ σ, v = -1 ∨ v = 1) (i : ℕ) :
    ∀ v ∈ flipAt σ i, v = -1 ∨ v = 1 := by
  induction σ generalizing i with
  | nil => intro v hv; simp [flipAt] at hv
  | cons x xs ih =>
    cases i with
    | zero =>
      intro v hv
      rcases List.mem_cons.mp hv with hv | hv
      · subst hv
        rcases h x (by simp) with hx | hx <;> simp [hx]
      · exact h v (List.mem_cons_of_mem x hv)
    | succ n =>
      intro v hv
      rcases List.mem_cons.mp hv with hv | hv
      · subst hv; exact h v (by simp)
      · exact ih (fun w hw => h w (List.mem_cons_of_mem x hw)) n v hv

/-- The state kept by one asynchronous update is either the input state or
the input state with exactly one coordinate negated. -/
theorem async_update_state {α : Type} [LinearOrderedField α]
    (E : List ℤ → α) (σ : List ℤ) (i : ℕ) :
    (async_update E σ i).1 = σ ∨ (async_update E σ i).1 = flipAt σ i := by
  rcases async_update_cases E σ i with h | ⟨h, _⟩ <;> rw [h]
  · exact Or.inl rfl
  · exact Or.inr rfl

/-- Every state of a scan trajectory, and the final state, stays bipolar
when the starting state is. -/
theorem async_recall_scan_bipolar {α : Type} [LinearOrderedField α]
    (E : List ℤ → α) (seq : List ℕ) (σ : List ℤ)
    (h : ∀ v ∈ σ, v = -1 ∨ v = 1) :
    (∀ τ ∈ (async_recall_scan E σ seq).2.1, ∀ v ∈ τ, v = -1 ∨ v = 1) ∧
      (∀ v ∈ (async_recall_scan E σ seq).1, v = -1 ∨ v = 1) := by
  induction seq generalizing σ with
  | nil =>
    refine ⟨?_, h⟩
    intro τ hτ
    simp [async_recall_scan] at hτ
  | cons i rest ih =>
    have hnext : ∀ v ∈ (async_update E σ i).1, v = -1 ∨ v = 1 := by
      rcases async_update_state E σ i with hs | hs <;> rw [hs]
      · exact h
      · exact flipAt_bipolar h i
    have hr := ih (async_update E σ i).1 hnext
    refine ⟨?_, hr.2⟩
    intro τ hτ
    rcases List.mem_cons.mp hτ with hτ | hτ
    · subst hτ; exact hnext
    · exact hr.1 τ hτ

/-- When no single-bit flip strictly lowers the energy of a state, one
asynchronous update keeps that state and records its energy. -/
theorem async_update_of_min {α : Type} [LinearOrderedField α]
    (E : List ℤ → α) (σ : List ℤ) (hmin : ∀ i, E σ ≤ E (flipAt σ i)) (i : ℕ) :
    async_update E σ i = (σ, E σ) := by
  rcases async_update_cases E σ i with h | ⟨_, hlt⟩
  · exact h
  · exact absurd hlt (not_lt.mpr (hmin i))

/-- When no single-bit flip strictly lowers the energy of the starting
state, the scan keeps it at every step and records its energy throughout. -/
theorem async_recall_scan_of_min {α : Type} [LinearOrderedField α]
    (E : List ℤ → α) (σ : List ℤ) (hmin : ∀ i, E σ ≤ E (flipAt σ i)) :
    ∀ seq : List ℕ, async_recall_scan E σ seq =
      (σ, (List.replicate seq.length σ, List.replicate seq.length (E σ)))
  | [] => rfl
  | i :: rest => by
    have hstep := async_update_of_min E σ hmin i
    have hrest := async_recall_scan_of_min E σ hmin rest
    simp [async_recall_scan, hstep, hrest, List.replicate_succ]

end EngineLemmas

section FlipDotLemmas

/-- Head-unfolding of the integer dot product. -/
theorem dotZ_cons (x y : ℤ) (xs ys : List ℤ) :
    dotZ (x :: xs) (y :: ys) = x * y + dotZ xs ys := by
  simp [dotZ]

/-- Flipping an index at or beyond the length leaves the vector unchanged. -/
theorem flipAt_of_le : ∀ (a : List ℤ) (i : ℕ), a.length ≤ i → flipAt a i = a
  | [], _, _ => rfl
  | x :: xs, i + 1, h => by
    simp only [flipAt]
    rw [flipAt_of_le xs i (by simpa using h)]

/-- The self-correlation of a vector drops by twice the squared flipped
entry when one coordinate is negated. -/
theorem dotZ_flipAt : ∀ (a : List ℤ) (i : ℕ),
    dotZ a (flipAt a i) = dotZ a a - 2 * (a.getD i 0) ^ 2
  | [], i => by simp [dotZ, flipAt]
  | x :: xs, 0 => by
    simp only [flipAt, dotZ_cons, List.getD_cons_zero]
    ring
  | x :: xs, i + 1 => by
    simp only [flipAt, dotZ_cons, List.getD_cons_succ]
    rw [dotZ_flipAt xs i]
    ring

/-- The self-correlation of a bipolar vector is its length. -/
theorem dotZ_self_bipolar : ∀ (a : List ℤ), (∀ v ∈ a, v = -1 ∨ v = 1) →
    dotZ a a = a.length
  | [], _ => rfl
  | x :: xs, h => by
    have hx : x * x = 1 := by
      rcases h x (by simp) with hx | hx <;> simp [hx]
    have := dotZ_self_bipolar xs (fun w hw => h w (List.mem_cons_of_mem x hw))
    simp [dotZ_cons, hx, this]
    ring

/-- A stored bipolar pattern is a local minimum of the single-pattern
quadratic energy under single-bit flips. -/
theorem chn_single_pattern_min (ξ : List ℤ) (hξ : ∀ v ∈ ξ, v = -1 ∨ v = 1)
    (i : ℕ) : CHN.energy [ξ] ξ ≤ CHN.energy [ξ] (flipAt ξ i) := by
  have key : (dotZ ξ (flipAt ξ i)) ^ 2 ≤ (dotZ ξ ξ) ^ 2 := by
    by_cases hi : ξ.length ≤ i
    · rw [flipAt_of_le ξ i hi]
    · push_neg at hi
      have hmem : ξ.getD i 0 ∈ ξ := by
        rw [List.getD_eq_getElem ξ 0 hi]
        exact List.getElem_mem hi
      have hg : (ξ.getD i 0) ^ 2 = 1 := by
        rcases hξ _ hmem with hg | hg <;> rw [hg] <;> ring
      have hL : (1 : ℤ) ≤ (ξ.length : ℤ) := by
        have : 0 < ξ.length := Nat.zero_lt_of_lt hi
        exact_mod_cast this
      rw [dotZ_flipAt ξ i, dotZ_self_bipolar ξ hξ, hg]
      nlinarith [hL]
  have keyQ : ((dotZ ξ (flipAt ξ i) : ℤ) : ℚ) ^ 2 ≤ ((dotZ ξ ξ : ℤ) : ℚ) ^ 2 := by
    exact_mod_cast key
  unfold CHN.energy
  simp only [List.map_cons, List.map_nil, List.sum_cons, List.sum_nil, add_zero]
  linarith [keyQ]

end FlipDotLemmas

/-- C1: for every energy function of the discrete family (the engine is
generic in any energy with values in a linearly ordered field, covering the
quadratic, rectified-polynomial and exponential variants), every initial
query, every seed and every step count, the energy sequence recorded by
`async_recall` is non-increasing, the first recorded energy is at most the
energy of the initial query, and each step either keeps the current state
or replaces it with a strictly lower-energy single-bit flip. -/
theorem discrete_energy_monotone {α : Type} [LinearOrderedField α]
    (E : List ℤ → α) (σ0 : List ℤ) (nsteps key : ℕ) :
    (∀ t, t + 1 < ((async_recall E σ0 nsteps key).2.2).length →
        ((async_recall E σ0 nsteps key).2.2).getD (t + 1) 0 ≤
          ((async_recall E σ0 nsteps key).2.2).getD t 0) ∧
      (0 < ((async_recall E σ0 nsteps key).2.2).length →
        ((async_recall E σ0 nsteps key).2.2).getD 0 0 ≤ E σ0) ∧
      (∀ σ i, async_update E σ i = (σ, E σ) ∨
        (async_update E σ i = (flipAt σ i, E (flipAt σ i)) ∧
          E (flipAt σ i) < E σ)) := by
  have h := chain_le_getD
    (async_recall_scan_chain E (bitflipSeq key σ0.length nsteps) σ0)
  exact ⟨h.1, h.2, async_update_cases E⟩

/-- Witness for C1: a concrete two-step recall of the quadratic energy on a
two-pattern memory, at which both recorded-energy inequalities of
`discrete_energy_monotone` are realized. -/
theorem discrete_energy_monotone_witness :
    (0 + 1 < ((async_recall (CHN.energy [[1, 1], [1, -1]]) [1, 1] 2 0).2.2).length ∧
      ((async_recall (CHN.energy [[1, 1], [1, -1]]) [1, 1] 2 0).2.2).getD (0 + 1) 0 ≤
        ((async_recall (CHN.energy [[1, 1], [1, -1]]) [1, 1] 2 0).2.2).getD 0 0) ∧
      (0 < ((async_recall (CHN.energy [[1, 1], [1, -1]]) [1, 1] 2 0).2.2).length ∧
        ((async_recall (CHN.energy [[1, 1], [1, -1]]) [1, 1] 2 0).2.2).getD 0 0 ≤
          CHN.energy [[1, 1], [1, -1]] [1, 1]) :=
  ⟨⟨by simp [async_recall, async_recall_scan, bitflipSeq, List.range_succ],
    (discrete_energy_monotone (CHN.energy [[1, 1], [1, -1]]) [1, 1] 2 0).1 0
      (by simp [async_recall, async_recall_scan, bitflipSeq, List.range_succ])⟩,
   ⟨by simp [async_recall, async_recall_scan, bitflipSeq, List.range_succ],
    (discrete_energy_monotone (CHN.energy [[1, 1], [1, -1]]) [1, 1] 2 0).2.1
      (by simp [async_recall, async_recall_scan, bitflipSeq, List.range_succ])⟩⟩

/-- C8: for every initial query with all entries in `{-1, +1}`, every state
appearing in the trajectory returned by `async_recall`, and the final state,
has all entries in `{-1, +1}`: the bipolar invariant is preserved at all
times in the discrete path. -/
theorem discrete_bipolar_invariant {α : Type} [LinearOrderedField α]
    (E : List ℤ → α) (σ0 : List ℤ) (h : ∀ v ∈ σ0, v = -1 ∨ v = 1)
    (nsteps key : ℕ) :
    (∀ τ ∈ (async_recall E σ0 nsteps key).2.1, ∀ v ∈ τ, v = -1 ∨ v = 1) ∧
      (∀ v ∈ (async_recall E σ0 nsteps key).1, v = -1 ∨ v = 1) :=
  async_recall_scan_bipolar E (bitflipSeq key σ0.length nsteps) σ0 h

/-- Witness for C8: the bipolar invariant at a concrete one-step recall of
the quadratic energy from the bipolar query `[1, -1]`. -/
theorem discrete_bipolar_invariant_witness :
    (∀ v ∈ ([1, -1] : List ℤ), v = -1 ∨ v = 1) ∧
      ((∀ τ ∈ (async_recall (CHN.energy [[1, 1]]) [1, -1] 1 0).2.1,
          ∀ v ∈ τ, v = -1 ∨ v = 1) ∧
        (∀ v ∈ (async_recall (CHN.energy [[1, 1]]) [1, -1] 1 0).1,
          v = -1 ∨ v = 1)) :=
  ⟨by decide,
    discrete_bipolar_invariant (CHN.energy [[1, 1]]) [1, -1] (by decide) 1 0⟩

/-- C5 (amended): a query that no single-bit flip can strictly improve is a
fixed point of the engine: for every seed and every step count, recall
returns it unchanged and every recorded energy equals its energy.  In
particular this holds for a stored bipolar pattern when it is the only
stored pattern (`K = 1`); for `K ≥ 2` crosstalk can break it (see the
counterexample). -/
theorem recall_fixed_point {α : Type} [LinearOrderedField α]
    (E : List ℤ → α) (σ0 : List ℤ)
    (hmin : ∀ i, E σ0 ≤ E (flipAt σ0 i)) (nsteps key : ℕ) :
    async_recall E σ0 nsteps key =
      (σ0, (List.replicate nsteps σ0, List.replicate nsteps (E σ0))) ∧
      ∀ (ξ : List ℤ), (∀ v ∈ ξ, v = -1 ∨ v = 1) → ∀ (n k : ℕ),
        async_recall (CHN.energy [ξ]) ξ n k =
          (ξ, (List.replicate n ξ, List.replicate n (CHN.energy [ξ] ξ))) := by
  constructor
  · unfold async_recall
    rw [async_recall_scan_of_min E σ0 hmin]
    simp [bitflipSeq]
  · intro ξ hξ n k
    unfold async_recall
    rw [async_recall_scan_of_min (CHN.energy [ξ]) ξ (chn_single_pattern_min ξ hξ)]
    simp [bitflipSeq]

/-- Witness for C5: the single stored pattern `[1, -1]` is a fixed point of
a concrete three-step recall of its own quadratic energy. -/
theorem recall_fixed_point_witness :
    (∀ i, CHN.energy [[1, -1]] [1, -1] ≤ CHN.energy [[1, -1]] (flipAt [1, -1] i)) ∧
      async_recall (CHN.energy [[1, -1]]) [1, -1] 3 0 =
        ([1, -1], (List.replicate 3 [1, -1],
          List.replicate 3 (CHN.energy [[1, -1]] [1, -1]))) :=
  have hmin := chn_single_pattern_min [1, -1] (by decide)
  ⟨hmin, (recall_fixed_point (CHN.energy [[1, -1]]) [1, -1] hmin 3 0).1⟩

/-- Counterexample to C5 as stated: `[1, 1]` is a stored pattern of this
four-pattern quadratic memory, yet a one-step recall starting from it (seed
1, whose first sampled index is bit 0) flips a bit, because the three
crosstalk patterns make the flipped state strictly lower in energy.  So a
stored pattern need not be returned unchanged for every seed once `K ≥ 2`. -/
theorem recall_fixed_point_cex :
    [1, 1] ∈ ([[1, 1], [1, -1], [1, -1], [1, -1]] : List (List ℤ)) ∧
      (async_recall (CHN.energy [[1, 1], [1, -1], [1, -1], [1, -1]]) [1, 1] 1 1).1
        ≠ [1, 1] := by
  constructor
  · simp
  · norm_num [async_recall, async_recall_scan, async_update, bitflipSeq,
      CHN.energy, dotZ, flipAt, List.range_succ]

/-- Trajectory lengths of the continuous scan agree with the step count. -/
theorem gd_scan_lengths (lnorm : List (List ℝ) → List (List ℝ))
    (energy : List (List ℝ) → ℝ) (egrad : List (List ℝ) → List (List ℝ))
    (step_size : ℝ) : ∀ (n : ℕ) (x : List (List ℝ)),
    (gd_scan lnorm energy egrad step_size x n).2.1.length = n ∧
      (gd_scan lnorm energy egrad step_size x n).2.2.length = n
  | 0, _ => ⟨rfl, rfl⟩
  | Nat.succ n, x => by
    have h := gd_scan_lengths lnorm energy egrad step_size n
      (matSub x (matSmul step_size (egrad (lnorm x))))
    simpa [gd_scan] using h

/-- C2: the discrete recall returns a trajectory of exactly `nsteps`
state/energy entries (the initial state is not included), while the
continuous `ImageEnergyTransformer.__call__` returns exactly `nsteps + 1`
normalized-state/energy entries, the extra entry being one final evaluation
of the layer norm and the energy on the final token state. -/
theorem trajectory_length_contract :
    (∀ {α : Type} [LinearOrderedField α] (E : List ℤ → α)
        (σ0 : List ℤ) (nsteps key : ℕ),
        (async_recall E σ0 nsteps key).2.1.length = nsteps ∧
          (async_recall E σ0 nsteps key).2.2.length = nsteps) ∧
      (∀ (lnorm : List (List ℝ) → List (List ℝ))
          (energy : List (List ℝ) → ℝ)
          (egrad : List (List ℝ) → List (List ℝ))
          (x0 : List (List ℝ)) (nsteps : ℕ) (step_size : ℝ),
        (imageET_call lnorm energy egrad x0 nsteps step_size).2.1.length
            = nsteps + 1 ∧
          (imageET_call lnorm energy egrad x0 nsteps step_size).2.2.length
            = nsteps + 1 ∧
          (imageET_call lnorm energy egrad x0 nsteps step_size).2.1.getLast?
            = some (lnorm (gd_scan lnorm energy egrad step_size x0 nsteps).1) ∧
          (imageET_call lnorm energy egrad x0 nsteps step_size).2.2.getLast?
            = some (energy (lnorm
                (gd_scan lnorm energy egrad step_size x0 nsteps).1))) := by
  constructor
  · intro α _ E σ0 nsteps key
    have h := async_recall_scan_lengths E (bitflipSeq key σ0.length nsteps) σ0
    have hlen : (bitflipSeq key σ0.length nsteps).length = nsteps := by
      simp [bitflipSeq]
    exact ⟨by rw [async_recall, h.1, hlen], by rw [async_recall, h.2, hlen]⟩
  · intro lnorm energy egrad x0 nsteps step_size
    have h := gd_scan_lengths lnorm energy egrad step_size nsteps x0
    refine ⟨?_, ?_, ?_, ?_⟩ <;>
      simp [imageET_call, h.1, h.2]

/-- C9: both recall engines are deterministic.  Two runs of the discrete
recall with the same energy function, initial query, step count and seed
produce identical results; the coordinate sequence (and hence the whole
run) is a pure function of the seed and step count; and two runs of the
continuous `energy_recall` with the same initial tokens, step size and step
count produce identical outputs (no randomness enters). -/
theorem recall_deterministic :
    (∀ {α : Type} [LinearOrderedField α] (E : List ℤ → α)
        (σ0 : List ℤ) (nsteps key : ℕ)
        (r1 r2 : List ℤ × (List (List ℤ) × List α)),
        r1 = async_recall E σ0 nsteps key →
          r2 = async_recall E σ0 nsteps key → r1 = r2) ∧
      (∀ {α : Type} [LinearOrderedField α] (E : List ℤ → α)
          (σ0 : List ℤ) (nsteps key : ℕ),
        async_recall E σ0 nsteps key =
          async_recall_scan E σ0 (bitflipSeq key σ0.length nsteps)) ∧
      (∀ (lnorm : List (List ℝ) → List (List ℝ))
          (energy : List (List ℝ) → ℝ)
          (egrad : List (List ℝ) → List (List ℝ))
          (x_init : List (List ℝ)) (nsteps : ℕ) (step_size : ℝ)
          (r1 r2 : List (List ℝ) × List ℝ),
        r1 = energy_recall lnorm energy egrad x_init nsteps step_size →
          r2 = energy_recall lnorm energy egrad x_init nsteps step_size →
            r1 = r2) := by
  refine ⟨?_, ?_, ?_⟩
  · intro α _ E σ0 nsteps key r1 r2 h1 h2
    rw [h1, h2]
  · intro α _ E σ0 nsteps key
    rfl
  · intro lnorm energy egrad x_init nsteps step_size r1 r2 h1 h2
    rw [h1, h2]

/-- Witness for C9: a concrete discrete run (whose value is computed
explicitly) and a concrete continuous run, each compared with a second run
of itself. -/
theorem recall_deterministic_witness :
    (([1], ([[1]], [-(1 / 2)])) =
        async_recall (CHN.energy [[1]]) [1] 1 0 ∧
      async_recall (CHN.energy [[1]]) [1] 1 0 =
        async_recall (CHN.energy [[1]]) [1] 1 0 ∧
      ([1], ([[1]], [-(1 / 2)])) = async_recall (CHN.energy [[1]]) [1] 1 0) ∧
      (energy_recall id (fun _ => 0) (fun _ => []) [[0]] 0 1 =
          energy_recall id (fun _ => 0) (fun _ => []) [[0]] 0 1 ∧
        energy_recall id (fun _ => 0) (fun _ => []) [[0]] 0 1 =
          energy_recall id (fun _ => 0) (fun _ => []) [[0]] 0 1) :=
  have hrun : (([1], ([[1]], [-(1 / 2)])) : List ℤ × (List (List ℤ) × List ℚ)) =
      async_recall (CHN.energy [[1]]) [1] 1 0 := by
    norm_num [async_recall, async_recall_scan, async_update, bitflipSeq,
      CHN.energy, dotZ, flipAt, List.range_succ]
  ⟨⟨hrun, rfl, recall_deterministic.1 (CHN.energy [[1]]) [1] 1 0 _ _ hrun rfl⟩,
    ⟨rfl, recall_deterministic.2.2 id (fun _ => 0) (fun _ => []) [[0]] 0 1 _ _
      rfl rfl⟩⟩

/-- Negating the right vector negates the dot product. -/
theorem dotZ_neg_right : ∀ (a b : List ℤ),
    dotZ a (b.map (fun v => -v)) = -dotZ a b
  | [], _ => by simp [dotZ]
  | _ :: _, [] => by simp [dotZ]
  | x :: xs, y :: ys => by
    simp only [List.map_cons, dotZ_cons, dotZ_neg_right xs ys]
    ring

/-- C3: the quadratic (Classical Hopfield) energy is exactly symmetric under
global sign inversion, for every stored-pattern matrix and every query; and
this sign symmetry fails for the rectified-polynomial family (rectification
enabled) and for the exponential family, witnessed by the one-pattern memory
`[[1]]` with query `[1]`. -/
theorem chn_sign_symmetry :
    (∀ (Xi : List (List ℤ)) (σ : List ℤ),
        CHN.energy Xi σ = CHN.energy Xi (σ.map (fun v => -v))) ∧
      PolynomialDenseAM.energy ⟨[[1]], 2, true⟩ [1] ≠
        PolynomialDenseAM.energy ⟨[[1]], 2, true⟩ ([1].map (fun v => -v)) ∧
      ExponentialDenseAM.energy [[1]] 1 [1] ≠
        ExponentialDenseAM.energy [[1]] 1 ([1].map (fun v => -v)) := by
  refine ⟨?_, ?_, ?_⟩
  · intro Xi σ
    simp [CHN.energy, dotZ_neg_right]
  · norm_num [PolynomialDenseAM.energy, PolynomialDenseAM.F_n, dotZ]
  · have h1 : ExponentialDenseAM.energy [[1]] 1 [1] = -1 := by
      simp [ExponentialDenseAM.energy, logsumexp, maxList, dotZ]
    have h2 : ExponentialDenseAM.energy [[1]] 1 ([1].map (fun v => -v)) = 1 := by
      simp [ExponentialDenseAM.energy, logsumexp, maxList, dotZ]
    rw [h1, h2]
    norm_num

/-- C4 (amended): construction of `PolynomialDenseAM` performs no validation
at all: for every pattern matrix, every degree `n` (including `n ≤ 0`) and
every rectification flag, the constructor succeeds and returns an ordinary
value recording exactly the given fields; no configuration error exists in
the construction path. -/
theorem poly_init_no_validation (Xi : List (List ℤ)) (n : ℤ) (r : Bool) :
    PolynomialDenseAM.init Xi n r = { Xi := Xi, n := n, rectified := r } ∧
      (PolynomialDenseAM.init Xi n r).n = n :=
  ⟨rfl, rfl⟩

/-- Counterexample to C4 as stated: constructing a rectified-polynomial
energy function with the non-positive degree `n = -1` does not fail; it
returns a normally constructed value whose recorded degree is `-1 ≤ 0`. -/
theorem poly_init_no_validation_cex :
    (PolynomialDenseAM.init [[1]] (-1) true).n = -1 ∧
      (PolynomialDenseAM.init [[1]] (-1) true).n ≤ 0 ∧
      (PolynomialDenseAM.init [[1]] (-1) true).Xi = [[1]] :=
  ⟨rfl, by decide, rfl⟩

/-- Sum of shifted exponentials factors as `exp (-m)` times the sum of
exponentials. -/
theorem sum_exp_sub (m : ℝ) : ∀ (l : List ℝ),
    (l.map (fun a => Real.exp (a - m))).sum =
      Real.exp (-m) * (l.map Real.exp).sum
  | [] => by simp
  | x :: xs => by
    simp only [List.map_cons, List.sum_cons, sum_exp_sub m xs]
    rw [Real.exp_sub, Real.exp_neg]
    field_simp

/-- The sum of exponentials of a nonempty list is positive. -/
theorem sum_exp_pos : ∀ (l : List ℝ), l ≠ [] → 0 < (l.map Real.exp).sum
  | [], h => absurd rfl h
  | x :: xs, _ => by
    simp only [List.map_cons, List.sum_cons]
    have hnn : 0 ≤ (xs.map Real.exp).sum :=
      List.sum_nonneg (by
        intro y hy
        rcases List.mem_map.mp hy with ⟨a, _, rfl⟩
        exact (Real.exp_pos a).le)
    linarith [Real.exp_pos x]

/-- The max-subtracted (stabilized) log-sum-exp evaluation agrees exactly
with the naive `log` of the sum of exponentials on every nonempty list. -/
theorem logsumexp_eq_log_sum_exp (l : List ℝ) (hl : l ≠ []) :
    logsumexp l = Real.log ((l.map Real.exp).sum) := by
  unfold logsumexp
  rw [sum_exp_sub (maxList l) l,
    Real.log_mul (Real.exp_ne_zero _) (ne_of_gt (sum_exp_pos l hl)),
    Real.log_exp]
  ring

/-- C7: for every stored-pattern matrix (nonempty, as a memory always is),
every inverse temperature and every query, the exponential family's energy
computed via the max-subtracted (stabilized) log-sum-exp equals the naive
closed form `-log Σ_μ exp(β·Ξ_μ·σ)` exactly: the stabilization is a pure
reformulation that changes no value in exact real arithmetic. -/
theorem exp_energy_stable_eq_naive (Xi : List (List ℤ)) (beta : ℝ)
    (σ : List ℤ) (hXi : Xi ≠ []) :
    ExponentialDenseAM.energy Xi beta σ =
      ExponentialDenseAM.energy_naive Xi beta σ := by
  unfold ExponentialDenseAM.energy ExponentialDenseAM.energy_naive
  rw [logsumexp_eq_log_sum_exp _ (by simpa using hXi)]
  rw [List.map_map]
  rfl

/-- Witness for C7: stabilized and naive evaluations agree at the concrete
one-pattern memory `[[1]]`, temperature 1, query `[1]`. -/
theorem exp_energy_stable_eq_naive_witness :
    ([[1]] : List (List ℤ)) ≠ [] ∧
      ExponentialDenseAM.energy [[1]] 1 [1] =
        ExponentialDenseAM.energy_naive [[1]] 1 [1] :=
  ⟨by simp, exp_energy_stable_eq_naive [[1]] 1 [1] (by simp)⟩

/-- C10: `ETConfig.get_beta` returns the default `1/sqrt(Y)` not only when
`beta` is unset (`None`) but also when it is explicitly supplied as `0.0`
(Python `or` treats `0.0` as falsy), and consequently `get_beta` never
returns 0 (for any configuration with positive head dimension `Y`). -/
theorem get_beta_default_on_zero (c : ETConfig) (hY : 0 < c.Y) :
    (c.beta = some 0 → c.get_beta = 1 / Real.sqrt c.Y) ∧
      (c.beta = none → c.get_beta = 1 / Real.sqrt c.Y) ∧
      c.get_beta ≠ 0 := by
  have hs : 0 < Real.sqrt c.Y := Real.sqrt_pos.mpr (by exact_mod_cast hY)
  have hd : (1 : ℝ) / Real.sqrt c.Y ≠ 0 := ne_of_gt (div_pos one_pos hs)
  refine ⟨?_, ?_, ?_⟩
  · intro h
    simp [ETConfig.get_beta, h]
  · intro h
    simp [ETConfig.get_beta, h]
  · cases hc : c.beta with
    | none => simpa [ETConfig.get_beta, hc] using hd
    | some b =>
      by_cases hb : b = 0
      · simpa [ETConfig.get_beta, hc, hb] using hd
      · simp only [ETConfig.get_beta, hc, if_neg hb]
        exact hb

/-- Witness for C10: the full-model configuration with `beta` explicitly
supplied as 0 falls back to the default and yields a nonzero temperature. -/
theorem get_beta_default_on_zero_witness :
    0 < (ETConfig.mk 768 12 64 3072 (some 0) true).Y ∧
      (ETConfig.mk 768 12 64 3072 (some 0) true).get_beta =
        1 / Real.sqrt ((ETConfig.mk 768 12 64 3072 (some 0) true).Y) ∧
      (ETConfig.mk 768 12 64 3072 (some 0) true).get_beta ≠ 0 :=
  ⟨by decide,
    (get_beta_default_on_zero (ETConfig.mk 768 12 64 3072 (some 0) true)
        (by decide)).1 rfl,
    (get_beta_default_on_zero (ETConfig.mk 768 12 64 3072 (some 0) true)
        (by decide)).2.2⟩

/-- The centered entries of a vector sum to zero. -/
theorem sum_centered_eq_zero {D : ℕ} (hD : 0 < D) (x : Fin D → ℝ) :
    ∑ i, (x i - (∑ j, x j) / (D : ℝ)) = 0 := by
  have hDne : ((D : ℝ)) ≠ 0 := Nat.cast_ne_zero.mpr hD.ne'
  rw [Finset.sum_sub_distrib, Finset.sum_const, Finset.card_univ,
    Fintype.card_fin, nsmul_eq_mul]
  field_simp

/-- Core of C6: the unbiased normalization formula is the Fréchet gradient
of the unbiased Lagrangian potential. -/
theorem eln_core_hasFDerivAt {D : ℕ} (γ eps : ℝ) (x : Fin D → ℝ)
    (hD : 0 < D) (hε : 0 < eps) :
    HasFDerivAt
      (fun y : Fin D → ℝ =>
        (D : ℝ) * γ *
          Real.sqrt ((∑ i, 1 / (D : ℝ) * (y i - (∑ j, y j) / (D : ℝ)) ^ 2) + eps))
      (∑ i, (γ * (x i - (∑ j, x j) / (D : ℝ)) /
          Real.sqrt ((∑ j, (x j - (∑ k, x k) / (D : ℝ)) ^ 2) / (D : ℝ) + eps)) •
        (ContinuousLinearMap.proj i : (Fin D → ℝ) →L[ℝ] ℝ)) x := by
  have hDr : (0 : ℝ) < (D : ℝ) := by exact_mod_cast hD
  have hDne : ((D : ℝ)) ≠ 0 := hDr.ne'
  set M : (Fin D → ℝ) →L[ℝ] ℝ :=
    ((D : ℝ))⁻¹ • (∑ j, (ContinuousLinearMap.proj j : (Fin D → ℝ) →L[ℝ] ℝ))
    with hMdef
  have hMapp : ∀ y : Fin D → ℝ, M y = (∑ j, y j) / (D : ℝ) := by
    intro y
    rw [hMdef]
    simp [ContinuousLinearMap.sum_apply, div_eq_inv_mul]
  have hmean : HasFDerivAt (fun y : Fin D → ℝ => (∑ j, y j) / (D : ℝ)) M x := by
    have h1 : HasFDerivAt (fun y : Fin D → ℝ => M y) M x := M.hasFDerivAt
    rwa [funext hMapp] at h1
  have hU : ∀ i : Fin D,
      HasFDerivAt (fun y : Fin D → ℝ => y i - (∑ j, y j) / (D : ℝ))
        ((ContinuousLinearMap.proj i : (Fin D → ℝ) →L[ℝ] ℝ) - M) x :=
    fun i => (ContinuousLinearMap.proj i :
      (Fin D → ℝ) →L[ℝ] ℝ).hasFDerivAt.sub hmean
  have hS : HasFDerivAt
      (fun y : Fin D → ℝ =>
        (∑ i, 1 / (D : ℝ) * (y i - (∑ j, y j) / (D : ℝ)) ^ 2) + eps)
      (∑ i, (1 / (D : ℝ) * (2 * (x i - (∑ j, x j) / (D : ℝ)))) •
        ((ContinuousLinearMap.proj i : (Fin D → ℝ) →L[ℝ] ℝ) - M)) x := by
    refine HasFDerivAt.add_const ?_ eps
    refine HasFDerivAt.sum (fun i _ => ?_)
    have hsq := (hasDerivAt_pow 2
      (x i - (∑ j, x j) / (D : ℝ))).comp_hasFDerivAt x (hU i)
    simpa [Function.comp, smul_smul, pow_one] using hsq.const_mul (1 / (D : ℝ))
  have hApos : (0 : ℝ) <
      (∑ i, 1 / (D : ℝ) * (x i - (∑ j, x j) / (D : ℝ)) ^ 2) + eps := by
    have hnn : (0 : ℝ) ≤ ∑ i, 1 / (D : ℝ) * (x i - (∑ j, x j) / (D : ℝ)) ^ 2 :=
      Finset.sum_nonneg fun i _ => by positivity
    linarith
  have hsqrt := hS.sqrt hApos.ne'
  have hT := hsqrt.const_mul ((D : ℝ) * γ)
  refine hT.congr_fderiv ?_
  refine ContinuousLinearMap.ext fun y => ?_
  simp only [ContinuousLinearMap.smul_apply, ContinuousLinearMap.sum_apply,
    ContinuousLinearMap.sub_apply, ContinuousLinearMap.proj_apply, hMapp,
    smul_eq_mul]
  have hsum_u : ∑ i, (x i - (∑ j, x j) / (D : ℝ)) = 0 := sum_centered_eq_zero hD x
  have hkey : ∑ i, (x i - (∑ j, x j) / (D : ℝ)) * (y i - (∑ j, y j) / (D : ℝ)) =
      ∑ i, (x i - (∑ j, x j) / (D : ℝ)) * y i := by
    have hterm : ∀ i : Fin D,
        (x i - (∑ j, x j) / (D : ℝ)) * (y i - (∑ j, y j) / (D : ℝ)) =
          (x i - (∑ j, x j) / (D : ℝ)) * y i -
            (x i - (∑ j, x j) / (D : ℝ)) * ((∑ j, y j) / (D : ℝ)) :=
      fun i => by ring
    rw [Finset.sum_congr rfl fun i _ => hterm i, Finset.sum_sub_distrib,
      ← Finset.sum_mul, hsum_u]
    ring
  have hstep : ∑ i, 1 / (D : ℝ) * (2 * (x i - (∑ j, x j) / (D : ℝ))) *
        (y i - (∑ j, y j) / (D : ℝ)) =
      2 / (D : ℝ) * ∑ i, (x i - (∑ j, x j) / (D : ℝ)) * y i := by
    calc ∑ i, 1 / (D : ℝ) * (2 * (x i - (∑ j, x j) / (D : ℝ))) *
          (y i - (∑ j, y j) / (D : ℝ))
        = ∑ i, 2 / (D : ℝ) *
            ((x i - (∑ j, x j) / (D : ℝ)) * (y i - (∑ j, y j) / (D : ℝ))) :=
          Finset.sum_congr rfl fun i _ => by ring
      _ = 2 / (D : ℝ) * ∑ i, (x i - (∑ j, x j) / (D : ℝ)) *
            (y i - (∑ j, y j) / (D : ℝ)) := (Finset.mul_sum _ _ _).symm
      _ = 2 / (D : ℝ) * ∑ i, (x i - (∑ j, x j) / (D : ℝ)) * y i := by rw [hkey]
  have hrhs : ∑ i, γ * (x i - (∑ j, x j) / (D : ℝ)) /
        Real.sqrt ((∑ j, (x j - (∑ k, x k) / (D : ℝ)) ^ 2) / (D : ℝ) + eps) * y i =
      γ / Real.sqrt ((∑ j, (x j - (∑ k, x k) / (D : ℝ)) ^ 2) / (D : ℝ) + eps) *
        ∑ i, (x i - (∑ j, x j) / (D : ℝ)) * y i := by
    rw [Finset.mul_sum]
    exact Finset.sum_congr rfl fun i _ => by ring
  rw [hstep, hrhs]
  have hAeq : (∑ i, 1 / (D : ℝ) * (x i - (∑ j, x j) / (D : ℝ)) ^ 2) =
      (∑ i, (x i - (∑ j, x j) / (D : ℝ)) ^ 2) / (D : ℝ) := by
    rw [eq_div_iff hDne, Finset.sum_mul]
    refine Finset.sum_congr rfl fun i _ => ?_
    field_simp
    ring
  rw [hAeq] at hApos ⊢
  have hsqrtpos : 0 < Real.sqrt
      ((∑ i, (x i - (∑ j, x j) / (D : ℝ)) ^ 2) / (D : ℝ) + eps) :=
    Real.sqrt_pos.mpr hApos
  field_simp
  ring

/-- The per-component bias term is linear, with the obvious derivative. -/
theorem eln_bias_hasFDerivAt {D : ℕ} (δ : Fin D → ℝ) (x : Fin D → ℝ) :
    HasFDerivAt (fun y : Fin D → ℝ => ∑ i, δ i * y i)
      (∑ i, δ i • (ContinuousLinearMap.proj i : (Fin D → ℝ) →L[ℝ] ℝ)) x :=
  HasFDerivAt.sum fun i _ =>
    ((ContinuousLinearMap.proj i :
      (Fin D → ℝ) →L[ℝ] ℝ).hasFDerivAt).const_mul (δ i)

/-- C6: for every real vector `x`, the normalization operator
`EnergyLayerNorm.__call__` at `x` is exactly the gradient of the scalar
potential `EnergyLayerNorm.lagrangian` at `x`, with the same `gamma`,
`delta`, `eps` and `use_bias` setting (the derivative of the Lagrangian is
the continuous linear map `y ↦ Σ_i call(x)_i · y_i`). -/
theorem eln_call_is_gradient {D : ℕ} (ln : EnergyLayerNorm D) (x : Fin D → ℝ)
    (hD : 0 < D) (hε : 0 < ln.eps) :
    HasFDerivAt ln.lagrangian
      (∑ i, ln.call x i •
        (ContinuousLinearMap.proj i : (Fin D → ℝ) →L[ℝ] ℝ)) x := by
  have hcore := eln_core_hasFDerivAt ln.gamma ln.eps x hD hε
  cases hub : ln.use_bias with
  | false =>
    have hfun : ln.lagrangian = fun y : Fin D → ℝ =>
        (D : ℝ) * ln.gamma *
          Real.sqrt ((∑ i, 1 / (D : ℝ) * (y i - (∑ j, y j) / (D : ℝ)) ^ 2) +
            ln.eps) := by
      funext y
      simp [EnergyLayerNorm.lagrangian, hub]
    rw [hfun]
    refine hcore.congr_fderiv ?_
    refine Finset.sum_congr rfl fun i _ => ?_
    simp [EnergyLayerNorm.call, hub]
  | true =>
    have h := hcore.add (eln_bias_hasFDerivAt ln.delta x)
    have hfun : ln.lagrangian = fun y : Fin D → ℝ =>
        (D : ℝ) * ln.gamma *
          Real.sqrt ((∑ i, 1 / (D : ℝ) * (y i - (∑ j, y j) / (D : ℝ)) ^ 2) +
            ln.eps) + ∑ i, ln.delta i * y i := by
      funext y
      simp [EnergyLayerNorm.lagrangian, hub]
    rw [hfun]
    refine h.congr_fderiv ?_
    rw [← Finset.sum_add_distrib]
    refine Finset.sum_congr rfl fun i _ => ?_
    simp [EnergyLayerNorm.call, hub, add_smul]

/-- Witness for C6: the gradient identity at the concrete two-dimensional
layer norm with unit gain, zero bias and `eps = 1`, at the origin. -/
theorem eln_call_is_gradient_witness :
    0 < 2 ∧ (0 : ℝ) < (⟨1, fun _ => 0, false, 1⟩ : EnergyLayerNorm 2).eps ∧
      HasFDerivAt
        (EnergyLayerNorm.lagrangian (⟨1, fun _ => 0, false, 1⟩ : EnergyLayerNorm 2))
        (∑ i, EnergyLayerNorm.call (⟨1, fun _ => 0, false, 1⟩ : EnergyLayerNorm 2)
            (fun _ => 0) i •
          (ContinuousLinearMap.proj i : (Fin 2 → ℝ) →L[ℝ] ℝ)) (fun _ => 0) :=
  ⟨by decide, by simp,
    eln_call_is_gradient (⟨1, fun _ => 0, false, 1⟩ : EnergyLayerNorm 2)
      (fun _ => 0) (by decide) (by simp)⟩

end AMTutorial
